import Mathlib

/-!
Shallow embedding of the LL(1) parser of this repository (canonical source:
`src/app.js`, class `LL1Parser` with its helper module `util.js`).

The embedding follows the source closely:

* a `ProductionRule` is a left-hand nonterminal plus a right-hand symbol list;
* the parser constructor infers `NONTERMINALS` and `TERMINALS` from the rules
  (Immutable.js `Set`s are modelled as duplicate-free lists), attaches the
  first set to every rule, and materialises the nested parse table
  (`Map` of `Map`s modelled as association lists);
* `firstOfSymbol` / `followOfSymbol` are the source's unguarded recursive
  functions; the JavaScript originals can recurse forever, so the embedding
  takes a fuel argument and returns `none` exactly when the source diverges
  (`Option`-valued helpers `mapO` / `filterO` thread this through the
  collection operations);
* `parse` drives the stack machine of `parseHelper`, building the tree
  through the cursor operations of `util.js` (`siblingNode`, `addChildren`
  and the descend-to-leftmost-new-child move), modelled as a zipper.
  JavaScript `undefined`-accesses (absent table cell, missing row) abort the
  run; they are modelled by the `crash` outcome, a `null` return by
  `nullResult`.
-/

namespace LLParsers

/-- The empty-string marker of the source (`get EMPTY() { return "0"; }`). -/
def EMPTY : String := "0"

/-- The start symbol of the source (`get START() { return "S"; }`). -/
def START : String := "S"

/-- The end-of-input marker of the source (`get END() { return "$"; }`). -/
def ENDM : String := "$"

/-- A context-free production rule `left => right`, as in class
`ProductionRule` of the source. -/
structure ProductionRule where
  left : String
  right : List String
deriving Repr, DecidableEq

/-- Source `this.NONTERMINALS`: all symbols appearing on the left side of a rule
(an Immutable.js `Set`, modelled as a deduplicated list). -/
def nonterminalsOf (rules : List ProductionRule) : List String :=
  (rules.map (fun r => r.left)).dedup

/-- Source `this.TERMINALS`: all right-side symbols that are neither nonterminals
nor the empty marker. -/
def terminalsOf (rules : List ProductionRule) : List String :=
  (((rules.map (fun r => r.right)).flatten.filter
    (fun s => !((nonterminalsOf rules).contains s) && !(s == EMPTY)))).dedup

/-- An `Option`-threading map: evaluates `f` on every element left to right and
fails as soon as one evaluation fails (models a JavaScript `.map` whose body
may diverge). -/
def mapO (f : α → Option β) : List α → Option (List β)
  | [] => some []
  | x :: xs => do
    let y ← f x
    let ys ← mapO f xs
    pure (y :: ys)

/-- An `Option`-threading filter: keeps the elements on which the test returns
`some true` and fails as soon as one test fails (models a JavaScript
`.filter` whose predicate may diverge). -/
def filterO (f : α → Option Bool) : List α → Option (List α)
  | [] => some []
  | x :: xs => do
    let b ← f x
    let rest ← filterO f xs
    pure (if b then x :: rest else rest)

/-- Source `firstOfSymbol`: for a nonterminal, the union over its rules of the first
set of the rule's leading right-hand symbol; for anything else, the symbol
itself.  The source recursion is unguarded, hence the fuel; `none` models
divergence.  A rule with an empty right side makes the source take the first
set of `undefined`, a value that no later string-membership test can match,
so it is modelled by the empty contribution. -/
def firstOfSymbol (rules : List ProductionRule) : Nat → String → Option (List String)
  | 0, _ => none
  | n + 1, symbol =>
    if (nonterminalsOf rules).contains symbol then
      (mapO (fun r =>
          match r.right.head? with
          | some s => firstOfSymbol rules n s
          | none => some [])
        (rules.filter (fun r => r.left == symbol))).map List.flatten
    else
      some [symbol]

/-- Source `firstOfProductionRule`: the first set of the leading right-hand symbol
of a rule. -/
def firstOfProductionRule (rules : List ProductionRule) (n : Nat)
    (r : ProductionRule) : Option (List String) :=
  match r.right.head? with
  | some s => firstOfSymbol rules n s
  | none => some []

/-- Source `followOfSymbol`: `[$]` for the start symbol; for another nonterminal,
the union, over the symbols found immediately to the right of its
occurrences in non-final position of a rule's right side, of the follow set
of that right neighbour; for anything else, the symbol itself.  Unguarded
recursion in the source, hence the fuel. -/
def followOfSymbol (rules : List ProductionRule) : Nat → String → Option (List String)
  | 0, _ => none
  | n + 1, symbol =>
    if symbol == START then
      some [ENDM]
    else if (nonterminalsOf rules).contains symbol then
      let validRules := rules.filter (fun r => r.right.dropLast.contains symbol)
      let unresolvedFollows := (validRules.map (fun r =>
        let symbolIndices := ((List.range r.right.length).dropLast).filter
          (fun i => r.right.get? i == some symbol)
        let rightIndices := symbolIndices.map (fun i => i + 1)
        rightIndices.filterMap (fun i => r.right.get? i))).flatten
      (mapO (followOfSymbol rules n) unresolvedFollows).map List.flatten
    else
      some [symbol]

/-- A production rule with its first set attached, as produced in the
constructor (`newRule.first = this.firstOfProductionRule(rule)`). -/
structure RuleF where
  left : String
  right : List String
  first : List String
deriving Repr, DecidableEq

/-- The cell filter of the parse table: a rule belongs in cell
`(nt, term)` when `term ∈ Fi(w)`, or `EMPTY ∈ Fi(w)` and
`term ∈ Fo(nt)`; the follow set is computed only when needed, mirroring the
short-circuit in the source. -/
def cellCond (rules : List ProductionRule) (fuel : Nat) (nt term : String)
    (r : RuleF) : Option Bool :=
  if r.first.contains term then some true
  else if r.first.contains EMPTY then
    (followOfSymbol rules fuel nt).map (fun fo => fo.contains term)
  else some false

/-- One parse-table cell: the rules with `nt` on the left are filtered by
`cellCond` and the first survivor (if any) is kept
(`.filter(...).filter(...).first()` in the source). -/
def cellOf (rules : List ProductionRule) (fuel : Nat) (rulesF : List RuleF)
    (nt term : String) : Option (Option RuleF) :=
  (filterO (cellCond rules fuel nt term) (rulesF.filter (fun r => r.left == nt))).map
    List.head?

/-- One row of the parse table: the map from each terminal to its cell,
labelled with the row's nonterminal. -/
def rowOf (rules : List ProductionRule) (fuel : Nat) (rulesF : List RuleF)
    (ts : List String) (nt : String) :
    Option (String × List (String × Option RuleF)) :=
  (mapO (fun t => (cellOf rules fuel rulesF nt t).map (fun c => (t, c))) ts).map
    (fun row => (nt, row))

/-- The parser object built by the `LL1Parser` constructor: the inferred
language, the rules with first sets attached, and the materialised
doubly-nested parse table. -/
structure Parser where
  rules : List ProductionRule
  NONTERMINALS : List String
  TERMINALS : List String
  rulesF : List RuleF
  parseTable : List (String × List (String × Option RuleF))
deriving Repr

/-- The `LL1Parser` constructor.  All first and follow computations happen
eagerly here; `none` models a constructor run that never returns. -/
def mkParser (rules : List ProductionRule) (fuel : Nat) : Option Parser := do
  let nts := nonterminalsOf rules
  let ts := terminalsOf rules
  let rulesF ← mapO (fun r =>
    (firstOfProductionRule rules fuel r).map (fun f => RuleF.mk r.left r.right f)) rules
  let table ← mapO (rowOf rules fuel rulesF ts) nts
  pure ⟨rules, nts, ts, rulesF, table⟩


/-- A parse-tree node (`util.TreeNode`): a value and an ordered list of
children. -/
inductive PTree where
  | node (value : String) (children : List PTree)
deriving Repr, BEq

/-- The value stored at a node. -/
def PTree.value : PTree → String
  | .node v _ => v

/-- The children of a node. -/
def PTree.children : PTree → List PTree
  | .node _ cs => cs

/-- The values of a node's children, in order. -/
def childVals (t : PTree) : List String :=
  t.children.map PTree.value

/-- One step of a Baobab cursor's path: the parent's value, the siblings to
the left of the focus (nearest first) and the siblings to its right. -/
structure Crumb where
  parentVal : String
  leftRev : List PTree
  right : List PTree

/-- Source `util.siblingNode`: the node immediately to the right of the focus, or,
when the focus is its parent's rightmost child, the sibling of the parent;
the root is returned unchanged. -/
def siblingNode : PTree → List Crumb → PTree × List Crumb
  | t, [] => (t, [])
  | t, c :: rest =>
    match c.right with
    | r :: rs => (r, ⟨c.parentVal, t :: c.leftRev, rs⟩ :: rest)
    | [] => siblingNode (.node c.parentVal (c.leftRev.reverse ++ [t])) rest

/-- Source `util.addChildren`: new leaf nodes for the given values are appended to
the focused node's children. -/
def addChildren (t : PTree) (valueList : List String) : PTree :=
  .node t.value (t.children ++ valueList.map (fun v => .node v []))

/-- Source `.select('children').down().leftmost()`: move the cursor into the
focused node's leftmost child; fails when there is none. -/
def descendLeftmost (t : PTree) (path : List Crumb) :
    Option (PTree × List Crumb) :=
  match t with
  | .node v cs =>
    match cs with
    | [] => none
    | ch :: rest => some (ch, ⟨v, [], rest⟩ :: path)

/-- Rebuild the whole tree from a cursor by walking back to the root. -/
def plugUp : PTree → List Crumb → PTree
  | t, [] => t
  | t, c :: rest => plugUp (.node c.parentVal (c.leftRev.reverse ++ t :: c.right)) rest

/-- Source `this.parseTable.get(topStackSymbol).get(topInputSymbol)`: `none` stands
for every lookup that yields JavaScript `undefined` (missing row, missing
column, empty cell, or an exhausted input whose `first()` is `undefined`). -/
def tableLookup (p : Parser) (s : String) (i? : Option String) : Option RuleF :=
  match i? with
  | none => none
  | some i =>
    match p.parseTable.lookup s with
    | none => none
    | some row =>
      match row.lookup i with
      | none => none
      | some cell => cell

/-- Outcome of a `parseHelper` run: a finished tree, the `null` return for
leftover input under an empty stack, a JavaScript `undefined`-access crash,
or fuel exhaustion (the JavaScript call simply recursing further). -/
inductive PResult where
  | tree (t : PTree)
  | nullResult
  | crash
  | outOfFuel
deriving Repr, BEq

/-- Is the outcome a finished tree? -/
def isTree : PResult → Bool
  | .tree _ => true
  | _ => false

/-- Source `parseHelper`: the table-driven stack machine of the source.  An empty
stack succeeds exactly when the remaining input is `[$]`; a stack/input
match consumes both; an `EMPTY` stack top is popped; otherwise the table
cell for (stack top, input front) is expanded onto the stack and into the
tree. -/
def parseHelper (p : Parser) : Nat → List String → List String → PTree →
    List Crumb → PResult
  | 0, _, _, _, _ => .outOfFuel
  | fuel + 1, input, stack, focus, path =>
    match stack with
    | [] => if input == [ENDM] then .tree (plugUp focus path) else .nullResult
    | topStackSymbol :: restStack =>
      if input.head? == some topStackSymbol then
        let next := siblingNode focus path
        parseHelper p fuel input.tail restStack next.1 next.2
      else if topStackSymbol == EMPTY then
        let next := siblingNode focus path
        parseHelper p fuel input restStack next.1 next.2
      else
        match tableLookup p topStackSymbol input.head? with
        | none => .crash
        | some rule =>
          match descendLeftmost (addChildren focus rule.right) path with
          | none => .crash
          | some next => parseHelper p fuel input (rule.right ++ restStack) next.1 next.2

/-- Source `parse`: append the end marker to the raw input, start with the start
symbol on the stack and a root node valued with the start symbol, and run
`parseHelper`. -/
def parse (p : Parser) (fuel : Nat) (rawInputList : List String) : PResult :=
  parseHelper p fuel (rawInputList ++ [ENDM]) [START] (.node START []) []

/-- The example grammar instantiated at the bottom of the source:
`S => a A B b`, `A => a A c`, `A => 0`, `B => b B`, `B => c`. -/
def exampleRules : List ProductionRule :=
  [⟨"S", ["a", "A", "B", "b"]⟩,
   ⟨"A", ["a", "A", "c"]⟩,
   ⟨"A", ["0"]⟩,
   ⟨"B", ["b", "B"]⟩,
   ⟨"B", ["c"]⟩]

/-- The parser the source builds for the example grammar (fuel 10 is ample:
every first/follow recursion of this grammar bottoms out within depth 4). -/
def exampleParser : Parser :=
  (mkParser exampleRules 10).getD ⟨[], [], [], [], []⟩

/-- One parse-table cell of a constructed parser, read back out of the
materialised table. -/
def tableCellOf (p : Parser) (nt t : String) : Option RuleF :=
  tableLookup p nt (some t)

/-- The membership condition the spec states for a table cell: the rule
qualifies for cell `(nt, term)` when `term` is in its first set, or the
empty marker is in its first set and `term` is in the follow set of `nt`
(the follow computation must come back, hence the existential). -/
def qualifies (rules : List ProductionRule) (fuel : Nat) (nt term : String)
    (r : RuleF) : Prop :=
  term ∈ r.first ∨
    (EMPTY ∈ r.first ∧ ∃ fo, followOfSymbol rules fuel nt = some fo ∧ term ∈ fo)

/-- Top-down derivability of a terminal string from a stack of pending
symbols: a terminal at the front of the stack must head the string, the
empty marker is erased, and a nonterminal at the front may be replaced by
the right side of any of its rules.  `Derives rules [START] s` is membership
of `s` in the grammar's language. -/
inductive Derives (rules : List ProductionRule) : List String → List String → Prop where
  | nil : Derives rules [] []
  | term {a σ out} : a ∈ terminalsOf rules → Derives rules σ out →
      Derives rules (a :: σ) (a :: out)
  | empty {σ out} : Derives rules σ out → Derives rules (EMPTY :: σ) out
  | expand {r σ out} : r ∈ rules → Derives rules (r.right ++ σ) out →
      Derives rules (r.left :: σ) out

/-- Membership in the language generated by the grammar from the start
symbol. -/
def InLanguage (rules : List ProductionRule) (s : List String) : Prop :=
  Derives rules [START] s

/-- Follow sets as the specification words them: the end marker for the
start symbol, plus, for every occurrence of the symbol in non-final position
of a right side, the FIRST set of the right neighbour, plus, for every
occurrence in final position of a right side, the follow set of that rule's
left-hand symbol, recursively. -/
def specFollowOfSymbol (rules : List ProductionRule) : Nat → String → Option (List String)
  | 0, _ => none
  | n + 1, symbol =>
    let nonfinalNeighbours := (rules.map (fun r =>
      (r.right.zip r.right.tail).filterMap
        (fun q => if q.1 == symbol then some q.2 else none))).flatten
    let finalRules := rules.filter (fun r => r.right.getLast? == some symbol)
    do
      let firsts ← mapO (firstOfSymbol rules n) nonfinalNeighbours
      let follows ← mapO (fun r => specFollowOfSymbol rules n r.left) finalRules
      pure ((if symbol == START then [ENDM] else []) ++ firsts.flatten ++ follows.flatten)

/-- The right neighbours of a symbol's non-final occurrences in a word,
stated positionally via `zip` (used to characterise the index bookkeeping
of `followOfSymbol`). -/
def rightNeighbours (w : List String) (symbol : String) : List String :=
  (w.zip w.tail).filterMap (fun q => if q.1 == symbol then some q.2 else none)

/-- A grammar on which two rules qualify for the same parse-table cell:
both `S => a` and `S => a b` have first set `{a}`. -/
def conflictRules : List ProductionRule :=
  [⟨"S", ["a"]⟩, ⟨"S", ["a", "b"]⟩]

/-- The parser the source constructs for `conflictRules` (construction
succeeds; the conflict is silently resolved in favour of the first rule). -/
def conflictParser : Parser :=
  (mkParser conflictRules 3).getD ⟨[], [], [], [], []⟩

/-- The second, silently dropped rule of the conflict grammar, with its
first set as the constructor attaches it. -/
def conflictRule2F : RuleF :=
  ⟨"S", ["a", "b"], ["a"]⟩

/-- A grammar with no rule for the start symbol `S`. -/
def noStartRules : List ProductionRule :=
  [⟨"A", ["a"]⟩]

/-- A left-recursive grammar: `A => A a`. -/
def leftRecRules : List ProductionRule :=
  [⟨"A", ["A", "a"]⟩]

/-- A grammar separating the source's follow computation from the spec's
formula: `S => A B`, `A => a`, `B => b`.  The spec's formula gives
FOLLOW(A) = FIRST(B) = `{b}`; the source takes FOLLOW of the neighbour `B`
instead, which is empty. -/
def followDemoRules : List ProductionRule :=
  [⟨"S", ["A", "B"]⟩, ⟨"A", ["a"]⟩, ⟨"B", ["b"]⟩]

/-- The tree the source actually produces for input `aacbbcb` under the
example grammar. -/
def exampleTree : PTree :=
  .node "S"
    [.node "a" [],
     .node "A"
       [.node "a" [],
        .node "A" [.node "0" []],
        .node "c" []],
     .node "B"
       [.node "b" [],
        .node "B"
          [.node "b" [],
           .node "B" [.node "c" []]]],
     .node "b" []]


/-! ### Basic facts used across the claims -/

/-- Elements produced by `mapO` come from elements of the input list. -/
theorem mapO_mem {f : α → Option β} {l : List α} {l' : List β}
    (h : mapO f l = some l') {b : β} (hb : b ∈ l') : ∃ a ∈ l, f a = some b := by
  induction l generalizing l' with
  | nil =>
    simp [mapO] at h
    subst h
    cases hb
  | cons x xs ih =>
    simp only [mapO, Option.bind_eq_bind, Option.bind_eq_some, Option.pure_def,
      Option.some.injEq] at h
    obtain ⟨y, hy, ys, hys, rfl⟩ := h
    rcases hb with _ | hb
    · exact ⟨x, by simp, hy⟩
    · obtain ⟨a, ha, hfa⟩ := ih hys (by assumption)
      exact ⟨a, by simp [ha], hfa⟩

/-- A successful `filterO` run is an ordinary filter on the elements whose
test returned `some true`. -/
theorem filterO_eq {f : α → Option Bool} {l l' : List α}
    (h : filterO f l = some l') : l' = l.filter (fun x => f x == some true) := by
  induction l generalizing l' with
  | nil =>
    simp only [filterO, Option.some.injEq] at h
    subst h
    simp
  | cons x xs ih =>
    simp only [filterO, Option.bind_eq_bind, Option.bind_eq_some, Option.pure_def,
      Option.some.injEq] at h
    obtain ⟨b, hb, rest, hrest, rfl⟩ := h
    cases b with
    | true => simp [List.filter_cons, hb, ih hrest]
    | false => simp [List.filter_cons, hb, ih hrest]

/-- A successful association-list lookup exhibits a member pair. -/
theorem lookup_mem {l : List (String × α)} {k : String} {v : α}
    (h : l.lookup k = some v) : (k, v) ∈ l := by
  induction l with
  | nil => cases h
  | cons p rest ih =>
    obtain ⟨a, b⟩ := p
    rw [List.lookup] at h
    by_cases hk : k = a
    · subst hk
      simp at h
      subst h
      simp
    · have hfalse : (k == a) = false := by simp [hk]
      rw [hfalse] at h
      simp [ih h]

/-- Looking up a key of a `mapO`-built association list whose builder labels
every entry with its key recovers the builder's value for that key. -/
theorem mapO_pair_lookup {α : Type} {f : String → Option (String × α)} {keys : List String}
    {tbl : List (String × α)}
    (hlab : ∀ k pr, f k = some pr → pr.1 = k)
    (h : mapO f keys = some tbl) {k : String} (hk : k ∈ keys) :
    ∃ v, f k = some (k, v) ∧ tbl.lookup k = some v := by
  induction keys generalizing tbl with
  | nil => cases hk
  | cons k0 rest ih =>
    simp only [mapO, Option.bind_eq_bind, Option.bind_eq_some, Option.pure_def,
      Option.some.injEq] at h
    obtain ⟨pr0, hpr0, tl, htl, rfl⟩ := h
    have hk0 : pr0.1 = k0 := hlab _ _ hpr0
    obtain ⟨a, v0⟩ := pr0
    simp only at hk0
    subst hk0
    by_cases he : k = a
    · subst he
      refine ⟨v0, hpr0, ?_⟩
      rw [List.lookup]
      simp
    · have hk' : k ∈ rest := by
        rcases List.mem_cons.mp hk with h1 | h1
        · exact absurd h1 he
        · exact h1
      obtain ⟨v, hv, hlook⟩ := ih htl hk'
      refine ⟨v, hv, ?_⟩
      rw [List.lookup]
      have hfalse : (k == a) = false := by simp [he]
      rw [hfalse]
      exact hlook

/-! ### Claim theorems -/

/-- C6: for every grammar, the follow set the source computes for the start
symbol contains the end-of-input marker (the start branch of
`followOfSymbol` returns exactly `[$]` whenever the computation runs at
all). -/
theorem follow_of_start_has_end_marker (rules : List ProductionRule) (n : Nat) :
    ∃ l, followOfSymbol rules (n + 1) START = some l ∧ ENDM ∈ l := by
  refine ⟨[ENDM], ?_, by simp⟩
  simp [followOfSymbol]

/-- C7: on the example grammar the source computes FIRST(a) = {a},
FIRST(A) = {a, empty-marker} and FOLLOW(A) = {c, b} (the computed lists,
read as sets, equal the claimed ones). -/
theorem example_first_follow_values :
    firstOfSymbol exampleRules 10 "a" = some ["a"] ∧
    firstOfSymbol exampleRules 10 "A" = some ["a", EMPTY] ∧
    followOfSymbol exampleRules 10 "A" = some ["b", "c"] ∧
    List.Perm ["b", "c"] ["c", "b"] := by
  refine ⟨rfl, rfl, rfl, by decide⟩

/-- C9: the first-set computation does not terminate on a left-recursive
grammar: on `A => A a`, `firstOfSymbol` recurses on `A` forever (it runs
out of any amount of fuel), and so does the parser constructor, which
evaluates it. -/
theorem firstOfSymbol_diverges_left_recursion :
    ∀ fuel, firstOfSymbol leftRecRules fuel "A" = none ∧
      mkParser leftRecRules fuel = none := by
  intro fuel
  induction fuel with
  | zero => exact ⟨rfl, rfl⟩
  | succ n ih =>
    have h1 : firstOfSymbol leftRecRules (n + 1) "A" = none := by
      rw [firstOfSymbol]
      rw [if_pos (by decide)]
      rw [show leftRecRules.filter (fun r => r.left == "A") = leftRecRules from by decide]
      have ih1 := ih.1
      simp only [leftRecRules] at ih1 ⊢
      simp [mapO, ih1]
    refine ⟨h1, ?_⟩
    rw [mkParser]
    have h1' := h1
    simp only [leftRecRules] at h1' ⊢
    simp [mapO, firstOfProductionRule, h1']

/-- C10: the parse operation itself appends exactly one end marker to the
raw input before running the stack machine, and once the stack is empty the
run returns a tree exactly when the remaining input is precisely that end
marker. -/
theorem parse_appends_end_marker :
    (∀ p fuel raw, parse p fuel raw =
      parseHelper p fuel (raw ++ [ENDM]) [START] (.node START []) []) ∧
    (∀ p fuel input focus path,
      (∃ t, parseHelper p (fuel + 1) input [] focus path = PResult.tree t) ↔
        input = [ENDM]) := by
  constructor
  · intro p fuel raw
    rfl
  · intro p fuel input focus path
    constructor
    · rintro ⟨t, ht⟩
      simp only [parseHelper] at ht
      by_cases h : input = [ENDM]
      · exact h
      · rw [if_neg (by simpa using h)] at ht
        cases ht
    · rintro rfl
      exact ⟨plugUp focus path, by simp [parseHelper]⟩

/-- C2: on the conflict grammar `S => a | S => a b` both rules satisfy the
cell condition of cell (S, a), yet table construction succeeds and the cell
silently holds the first rule: the second is dropped without any conflict
signal. -/
theorem conflict_first_match_wins :
    mkParser conflictRules 3 = some conflictParser ∧
    tableCellOf conflictParser "S" "a" = some ⟨"S", ["a"], ["a"]⟩ ∧
    conflictRule2F ∈ conflictParser.rulesF ∧
    cellCond conflictRules 3 "S" "a" conflictRule2F = some true ∧
    tableCellOf conflictParser "S" "a" ≠ some conflictRule2F := by
  refine ⟨rfl, rfl, by decide, rfl, by decide⟩

/-- C8 (counterexample): a grammar whose rules never mention the start
symbol on the left is constructed without any error: there is no
missing-start-rule check (and, the language being inferred rather than
declared, no undeclared-symbol check either). -/
theorem construction_without_start_rule_succeeds :
    (mkParser noStartRules 2).isSome = true ∧
    (∀ r ∈ noStartRules, r.left ≠ START) ∧
    nonterminalsOf noStartRules = ["A"] ∧
    terminalsOf noStartRules = ["a"] := by
  refine ⟨rfl, by decide, rfl, rfl⟩

/-- C8 (amended): construction performs language inference instead of
validation: a symbol is a nonterminal exactly when it heads some rule, and
a terminal exactly when it occurs in some right side without being a
nonterminal or the empty marker. -/
theorem language_inference_no_validation :
    (∀ (rules : List ProductionRule) s,
      s ∈ nonterminalsOf rules ↔ ∃ r ∈ rules, r.left = s) ∧
    (∀ (rules : List ProductionRule) s,
      s ∈ terminalsOf rules ↔
        ((∃ r ∈ rules, s ∈ r.right) ∧ s ∉ nonterminalsOf rules ∧ s ≠ EMPTY)) := by
  constructor
  · intro rules s
    simp [nonterminalsOf]
  · intro rules s
    simp only [terminalsOf, List.mem_dedup, List.mem_filter, List.mem_flatten,
      List.mem_map]
    constructor
    · rintro ⟨⟨w, ⟨r, hr, rfl⟩, hs⟩, hb⟩
      simp at hb
      exact ⟨⟨r, hr, hs⟩, hb.1, hb.2⟩
    · rintro ⟨⟨r, hr, hs⟩, hnt, hne⟩
      exact ⟨⟨r.right, ⟨r, hr, rfl⟩, hs⟩, by simp [hnt, hne]⟩

/-- C3 (counterexample): parsing `a a c b b c b` with the example grammar
succeeds, the root has children `a, A, B, b`, and the `A` child expands as
`a A c` — but its inner `A` expands directly to the empty marker, not to
`a A c` as claimed. -/
theorem example_parse_inner_A_empty :
    parse exampleParser 30 ["a", "a", "c", "b", "b", "c", "b"] = .tree exampleTree ∧
    childVals exampleTree = ["a", "A", "B", "b"] ∧
    (exampleTree.children.get? 1).map childVals = some ["a", "A", "c"] ∧
    ((exampleTree.children.get? 1).bind (fun u => u.children.get? 1)).map childVals
      = some [EMPTY] ∧
    ((exampleTree.children.get? 1).bind (fun u => u.children.get? 1)).map childVals
      ≠ some ["a", "A", "c"] := by
  refine ⟨rfl, rfl, rfl, rfl, by decide⟩

/-- C3 (amended): parsing `a a c b b c b` returns exactly the tree whose
root `S` has children `a, A, B, b`; the `A` child expands as `a A c` and its
inner `A` expands to the empty marker; the `B` child expands as `b B`, whose
inner `B` expands as `b B`, whose inner `B` expands as `c`. -/
theorem example_parse_tree :
    parse exampleParser 30 ["a", "a", "c", "b", "b", "c", "b"] = .tree exampleTree ∧
    childVals exampleTree = ["a", "A", "B", "b"] ∧
    (exampleTree.children.get? 1).map childVals = some ["a", "A", "c"] ∧
    ((exampleTree.children.get? 1).bind (fun u => u.children.get? 1)).map childVals
      = some [EMPTY] ∧
    (exampleTree.children.get? 2).map childVals = some ["b", "B"] ∧
    ((exampleTree.children.get? 2).bind (fun u => u.children.get? 1)).map childVals
      = some ["b", "B"] ∧
    (((exampleTree.children.get? 2).bind (fun u => u.children.get? 1)).bind
      (fun u => u.children.get? 1)).map childVals = some ["c"] := by
  refine ⟨rfl, rfl, rfl, rfl, rfl, rfl, rfl⟩

/-- Unfolding of a successful constructor run into its components. -/
theorem mkParser_parts {rules : List ProductionRule} {fuel : Nat} {p : Parser}
    (h : mkParser rules fuel = some p) :
    p.rules = rules ∧ p.NONTERMINALS = nonterminalsOf rules ∧
    p.TERMINALS = terminalsOf rules ∧
    mapO (fun r => (firstOfProductionRule rules fuel r).map
      (fun f => RuleF.mk r.left r.right f)) rules = some p.rulesF ∧
    mapO (rowOf rules fuel p.rulesF (terminalsOf rules)) (nonterminalsOf rules)
      = some p.parseTable := by
  simp only [mkParser, Option.bind_eq_bind, Option.bind_eq_some, Option.pure_def,
    Option.some.injEq] at h
  obtain ⟨rf, hrf, tbl, htbl, hp⟩ := h
  subst hp
  exact ⟨rfl, rfl, rfl, hrf, htbl⟩

/-- In a constructed parser, the table entry of a (nonterminal, terminal)
pair is exactly what `cellOf` computes for it. -/
theorem cell_lookup_forward {rules : List ProductionRule} {fuel : Nat} {p : Parser}
    (h : mkParser rules fuel = some p) {nt t : String}
    (hnt : nt ∈ p.NONTERMINALS) (ht : t ∈ p.TERMINALS) :
    ∃ cell, cellOf rules fuel p.rulesF nt t = some cell ∧ tableCellOf p nt t = cell := by
  obtain ⟨-, hN, hT, -, htbl⟩ := mkParser_parts h
  have hrowlab : ∀ k pr, rowOf rules fuel p.rulesF (terminalsOf rules) k = some pr →
      pr.1 = k := by
    intro k pr hpr
    simp only [rowOf, Option.map_eq_some'] at hpr
    obtain ⟨row, -, hrow⟩ := hpr
    rw [hrow.symm]
  obtain ⟨row, hrow, hlook⟩ := mapO_pair_lookup hrowlab htbl (hN ▸ hnt)
  simp only [rowOf, Option.map_eq_some'] at hrow
  obtain ⟨row0, hrow0, heq⟩ := hrow
  have hrow0eq : row0 = row := by
    have h2 := congrArg Prod.snd heq
    simpa using h2
  subst hrow0eq
  have hcelllab : ∀ k pr,
      (cellOf rules fuel p.rulesF nt k).map (fun c => (k, c)) = some pr → pr.1 = k := by
    intro k pr hpr
    simp only [Option.map_eq_some'] at hpr
    obtain ⟨c, -, hc⟩ := hpr
    rw [hc.symm]
  obtain ⟨cell, hcell, hclook⟩ := mapO_pair_lookup hcelllab hrow0 (hT ▸ ht)
  simp only [Option.map_eq_some'] at hcell
  obtain ⟨c0, hc0, hc0eq⟩ := hcell
  have hc0cell : c0 = cell := by
    have h2 := congrArg Prod.snd hc0eq
    simpa using h2
  rw [hc0cell] at hc0
  refine ⟨cell, hc0, ?_⟩
  simp [tableCellOf, tableLookup, hlook, hclook]

/-- Any rule found by a raw table lookup belongs to the constructed rule set
and has the looked-up symbol on its left. -/
theorem cell_lookup_backward {rules : List ProductionRule} {fuel : Nat} {p : Parser}
    (h : mkParser rules fuel = some p) {s i : String} {r : RuleF}
    (hr : tableLookup p s (some i) = some r) :
    r ∈ p.rulesF ∧ r.left = s := by
  obtain ⟨-, -, -, -, htbl⟩ := mkParser_parts h
  have hr' : (match p.parseTable.lookup s with
    | none => none
    | some row =>
      match row.lookup i with
      | none => none
      | some cell => cell) = some r := hr
  cases htabl : p.parseTable.lookup s with
  | none =>
    rw [htabl] at hr'
    cases hr'
  | some row =>
    rw [htabl] at hr'
    dsimp only at hr'
    cases hrowl : row.lookup i with
    | none =>
      rw [hrowl] at hr'
      dsimp only at hr'
      cases hr'
    | some cell =>
      rw [hrowl] at hr'
      dsimp only at hr'
      subst hr'
      obtain ⟨nt, -, hnt⟩ := mapO_mem htbl (lookup_mem htabl)
      simp only [rowOf, Option.map_eq_some'] at hnt
      obtain ⟨row0, hrow0, heq⟩ := hnt
      have hnts : nt = s := by
        have h2 := congrArg Prod.fst heq
        simpa using h2
      have hrow0eq : row0 = row := by
        have h2 := congrArg Prod.snd heq
        simpa using h2
      subst hnts
      subst hrow0eq
      obtain ⟨t, -, htc⟩ := mapO_mem hrow0 (lookup_mem hrowl)
      simp only [Option.map_eq_some'] at htc
      obtain ⟨c0, hc0, hc0eq⟩ := htc
      have hti : t = i := by
        have h2 := congrArg Prod.fst hc0eq
        simpa using h2
      have hc0c : c0 = some r := by
        have h2 := congrArg Prod.snd hc0eq
        simpa using h2
      subst hti
      rw [hc0c] at hc0
      simp only [cellOf, Option.map_eq_some'] at hc0
      obtain ⟨l', hl', hhead⟩ := hc0
      have hrl' : r ∈ l' := by
        cases l' with
        | nil => cases hhead
        | cons x xs =>
          simp only [List.head?] at hhead
          cases hhead
          simp
      have hfeq := filterO_eq hl'
      subst hfeq
      have h1 := List.mem_of_mem_filter hrl'
      have h2 := List.mem_filter.mp h1
      exact ⟨h2.1, by simpa using h2.2⟩

/-- The head of a list, when present, is a member. -/
theorem head?_mem {α : Type} {l : List α} {a : α} (h : l.head? = some a) : a ∈ l := by
  cases l with
  | nil => cases h
  | cons x xs =>
    simp at h
    simp [h]

/-- The cell test returns `some true` exactly when the rule qualifies for
the cell in the sense of the spec's membership condition. -/
theorem cellCond_true_iff {rules : List ProductionRule} {fuel : Nat}
    {nt t : String} {r : RuleF} :
    cellCond rules fuel nt t r = some true ↔ qualifies rules fuel nt t r := by
  unfold cellCond qualifies
  by_cases h1 : r.first.contains t
  · simp only [if_pos h1]
    simp at h1
    simp [h1]
  · rw [if_neg h1]
    simp at h1
    by_cases h2 : r.first.contains EMPTY
    · simp only [if_pos h2]
      simp at h2
      simp [h1, h2, Option.map_eq_some']
    · rw [if_neg h2]
      simp at h2
      simp [h1, h2]

/-- C1 (amended): in any constructed parser, a table cell (A, a) satisfies:
every rule it holds has A on the left and meets the spec's membership
condition; it is empty exactly when no rule qualifies (a valid value, not an
error); and it holds a given qualifying rule provided that rule is the only
qualifying one — in general the cell keeps only the first qualifying rule
in rule order, so the claimed unconditional "iff" holds only under that
uniqueness. -/
theorem parseTable_cell_first_match (rules : List ProductionRule) (fuel : Nat)
    (p : Parser) (nt t : String) (h : mkParser rules fuel = some p)
    (hnt : nt ∈ p.NONTERMINALS) (ht : t ∈ p.TERMINALS) :
    (∀ r, tableCellOf p nt t = some r →
      r ∈ p.rulesF ∧ r.left = nt ∧ qualifies rules fuel nt t r) ∧
    (tableCellOf p nt t = none ↔
      ∀ r ∈ p.rulesF, r.left = nt → ¬ qualifies rules fuel nt t r) ∧
    (∀ r, r ∈ p.rulesF → r.left = nt → qualifies rules fuel nt t r →
      (∀ r', r' ∈ p.rulesF → r'.left = nt → qualifies rules fuel nt t r' → r' = r) →
      tableCellOf p nt t = some r) := by
  obtain ⟨cell, hcell, htc⟩ := cell_lookup_forward h hnt ht
  simp only [cellOf, Option.map_eq_some'] at hcell
  obtain ⟨l', hl', hhead⟩ := hcell
  have hfeq := filterO_eq hl'
  subst hfeq
  subst hhead
  rw [htc]
  refine ⟨?_, ?_, ?_⟩
  · intro r hr
    have hmem := List.mem_of_mem_filter (head?_mem hr)
    have hcond := List.of_mem_filter (head?_mem hr)
    have h2 := List.mem_filter.mp hmem
    refine ⟨h2.1, by simpa using h2.2, ?_⟩
    rw [← cellCond_true_iff]
    simpa using hcond
  · constructor
    · intro hnone r hrF hleft hq
      have hr' : r ∈ (p.rulesF.filter (fun r => r.left == nt)).filter
          (fun x => cellCond rules fuel nt t x == some true) := by
        refine List.mem_filter.mpr ⟨List.mem_filter.mpr ⟨hrF, by simp [hleft]⟩, ?_⟩
        simp [cellCond_true_iff.mpr hq]
      rw [List.head?_eq_none_iff] at hnone
      rw [hnone] at hr'
      cases hr'
    · intro hall
      rw [List.head?_eq_none_iff, List.filter_eq_nil_iff]
      intro r hr
      have h2 := List.mem_filter.mp hr
      have hq := hall r h2.1 (by simpa using h2.2)
      simp only [beq_iff_eq]
      intro hc
      exact hq (cellCond_true_iff.mp hc)
  · intro r hrF hleft hq huniq
    have hr' : r ∈ (p.rulesF.filter (fun r => r.left == nt)).filter
        (fun x => cellCond rules fuel nt t x == some true) := by
      refine List.mem_filter.mpr ⟨List.mem_filter.mpr ⟨hrF, by simp [hleft]⟩, ?_⟩
      simp [cellCond_true_iff.mpr hq]
    cases hhd : ((p.rulesF.filter (fun r => r.left == nt)).filter
        (fun x => cellCond rules fuel nt t x == some true)).head? with
    | none =>
      rw [List.head?_eq_none_iff] at hhd
      rw [hhd] at hr'
      cases hr'
    | some r0 =>
      have hmem0 := List.mem_of_mem_filter (head?_mem hhd)
      have hcond0 := List.of_mem_filter (head?_mem hhd)
      have h20 := List.mem_filter.mp hmem0
      have : r0 = r := huniq r0 h20.1 (by simpa using h20.2)
        (cellCond_true_iff.mp (by simpa using hcond0))
      rw [this]

/-- C1 (counterexample): on the conflict grammar, the dropped second rule
`S => a b` satisfies the claimed membership condition for cell (S, a), yet
the cell does not hold it — the claimed "iff" fails for constructed parsers
whose grammars are not LL(1). -/
theorem parseTable_cell_iff_fails :
    mkParser conflictRules 3 = some conflictParser ∧
    conflictRule2F ∈ conflictParser.rulesF ∧
    conflictRule2F.left = "S" ∧
    qualifies conflictRules 3 "S" "a" conflictRule2F ∧
    tableCellOf conflictParser "S" "a" ≠ some conflictRule2F := by
  refine ⟨rfl, by decide, rfl, Or.inl (by decide), by decide⟩

/-- C1 (witness): instantiating the characterisation on the example grammar
at cell (A, c), whose unique qualifying rule is `A => 0`. -/
theorem parseTable_cell_first_match_witness :
    tableCellOf exampleParser "A" "c" = some ⟨"A", ["0"], ["0"]⟩ := by
  have h := parseTable_cell_first_match exampleRules 10 exampleParser "A" "c" rfl
    (by decide) (by decide)
  refine h.2.2 _ (by decide) rfl ?_ ?_
  · exact Or.inr ⟨by decide, ["b", "c"], rfl, by decide⟩
  · intro r' hr' hl hq
    have hrulesF : exampleParser.rulesF =
        [⟨"S", ["a", "A", "B", "b"], ["a"]⟩,
         ⟨"A", ["a", "A", "c"], ["a"]⟩,
         ⟨"A", ["0"], ["0"]⟩,
         ⟨"B", ["b", "B"], ["b"]⟩,
         ⟨"B", ["c"], ["c"]⟩] := rfl
    rw [hrulesF] at hr'
    simp only [List.mem_cons, List.not_mem_nil, or_false] at hr'
    rcases hr' with rfl | rfl | rfl | rfl | rfl
    · exact absurd hl (by decide)
    · rcases hq with hq | ⟨h0, -⟩
      · simp at hq
      · simp [EMPTY] at h0
    · rfl
    · exact absurd hl (by decide)
    · exact absurd hl (by decide)

/-- The index bookkeeping of `followOfSymbol` (non-final indices of a
symbol's occurrences, shifted right by one and looked up) computes exactly
the right neighbours of the symbol's non-final occurrences. -/
theorem sourceNeighbours_eq (w : List String) (X : String) :
    (((List.range w.length).dropLast.filter (fun i => w.get? i == some X)).map
      (fun i => i + 1)).filterMap (fun i => w.get? i) = rightNeighbours w X := by
  induction w with
  | nil => rfl
  | cons a w ih =>
    cases w with
    | nil => rfl
    | cons b w' =>
      have h1 : ∀ n : Nat, (List.range (n + 1)).dropLast = List.range n := by
        intro n
        rw [List.range_succ, List.dropLast_concat]
      rw [show ((a :: b :: w').length) = (b :: w').length + 1 from rfl, h1]
      rw [show ((b :: w').length) = w'.length + 1 from rfl, List.range_succ_eq_map]
      rw [show ((b :: w').length) = w'.length + 1 from rfl, h1] at ih
      have hr : rightNeighbours (a :: b :: w') X =
          (if (a == X) = true then [b] else []) ++ rightNeighbours (b :: w') X := by
        unfold rightNeighbours
        rw [show ((a :: b :: w').zip (a :: b :: w').tail) =
          (a, b) :: ((b :: w').zip (b :: w').tail) from rfl]
        rw [List.filterMap_cons]
        by_cases hx : (a == X) = true
        · simp [hx]
        · simp [hx]
      rw [hr, ← ih]
      simp only [List.filter_cons, List.get?_cons_zero,
        show (some a == some X) = (a == X) from rfl, List.filter_map,
        List.map_cons, List.map_map, List.filterMap_cons, List.filterMap_map,
        Function.comp, List.get?_cons_succ, Nat.succ_eq_add_one]
      by_cases hx : (a == X) = true
      · simp only [hx, if_true, List.map_cons, List.filterMap_cons,
          List.filterMap_map, List.get?_eq_getElem?, List.getElem?_cons_succ,
          List.getElem?_cons_zero, Function.comp_apply, Nat.succ_eq_add_one,
          Nat.zero_add, List.singleton_append]
        have hf : (((fun i => (a :: b :: w')[i]?) ∘ fun i => i + 1) ∘ Nat.succ) =
            ((fun i => (b :: w')[i]?) ∘ fun i => i + 1) := by
          funext i
          simp [Function.comp]
        have hp : ((fun i => (a :: b :: w')[i]? == some X) ∘ Nat.succ) =
            (fun i => (b :: w')[i]? == some X) := by
          funext i
          simp [Function.comp]
        rw [hf, hp]
      · simp [hx, Function.comp, List.filterMap_map, List.get?_cons_succ,
          Nat.succ_eq_add_one]
        have hf : (((fun i => (a :: b :: w')[i]?) ∘ fun i => i + 1) ∘ Nat.succ) =
            ((fun i => (b :: w')[i]?) ∘ fun i => i + 1) := by
          funext i
          simp [Function.comp]
        have hp : ((fun i => (a :: b :: w')[i]? == some X) ∘ Nat.succ) =
            (fun i => (b :: w')[i]? == some X) := by
          funext i
          simp [Function.comp]
        rw [hf, hp]

/-- First components of `w.zip w.tail` are the word without its last
symbol. -/
theorem zip_tail_fst (w : List String) : (w.zip w.tail).map Prod.fst = w.dropLast := by
  induction w with
  | nil => rfl
  | cons a w ih =>
    cases w with
    | nil => rfl
    | cons b w' =>
      show ((a, b) :: (b :: w').zip w').map Prod.fst = a :: (b :: w').dropLast
      rw [List.map_cons]
      exact congrArg (List.cons a) ih

/-- A symbol absent from the non-final positions of a word has no right
neighbours there. -/
theorem rightNeighbours_eq_nil {w : List String} {X : String}
    (h : w.dropLast.contains X = false) : rightNeighbours w X = [] := by
  unfold rightNeighbours
  rw [List.filterMap_eq_nil_iff]
  intro q hq
  have hfst : q.1 ∈ w.dropLast := by
    rw [← zip_tail_fst w]
    exact List.mem_map_of_mem Prod.fst hq
  have hne : (q.1 == X) = false := by
    simp only [List.contains_eq_any_beq, List.any_eq_false] at h
    have h2 := h q.1 hfst
    simp only [beq_iff_eq] at h2
    rw [beq_eq_false_iff_ne]
    intro hh
    exact h2 hh.symm
  simp [hne]

/-- Filtering out elements with empty contribution does not change a
flattened map. -/
theorem flatten_map_filter {α β : Type} (l : List α) (q : α → Bool) (f : α → List β)
    (hf : ∀ a, q a = false → f a = []) :
    ((l.filter q).map f).flatten = (l.map f).flatten := by
  induction l with
  | nil => rfl
  | cons x xs ih =>
    by_cases hq : q x = true
    · simp [List.filter_cons, hq, ih]
    · have hq' : q x = false := by simpa using hq
      simp [List.filter_cons, hq', hf x hq', ih]

/-- C5 (amended): for a non-start nonterminal X, the follow set the source
computes is the union, over the right neighbours Y of the occurrences of X
in non-final position of any right side, of the recursively computed
FOLLOW(Y) — not FIRST(Y) — and occurrences of X in final position
contribute nothing; a terminal's follow set is itself, and the start
symbol's is the end marker. -/
theorem followOfSymbol_neighbour_recurrence :
    (∀ (rules : List ProductionRule) n X, X ≠ START → X ∈ nonterminalsOf rules →
      followOfSymbol rules (n + 1) X =
        (mapO (followOfSymbol rules n)
          ((rules.map (fun r => rightNeighbours r.right X)).flatten)).map List.flatten) ∧
    (∀ (rules : List ProductionRule) n X, X ≠ START → X ∉ nonterminalsOf rules →
      followOfSymbol rules (n + 1) X = some [X]) ∧
    (∀ (rules : List ProductionRule) n, followOfSymbol rules (n + 1) START = some [ENDM]) := by
  refine ⟨?_, ?_, ?_⟩
  · intro rules n X hs hnt
    rw [followOfSymbol]
    rw [if_neg (by simpa using hs)]
    rw [if_pos (by simpa using hnt)]
    dsimp only
    have hmapeq : (rules.filter (fun r => r.right.dropLast.contains X)).map (fun r =>
        (((List.range r.right.length).dropLast.filter
          (fun i => r.right.get? i == some X)).map (fun i => i + 1)).filterMap
            (fun i => r.right.get? i)) =
        (rules.filter (fun r => r.right.dropLast.contains X)).map
          (fun r => rightNeighbours r.right X) := by
      apply List.map_congr_left
      intro r _
      exact sourceNeighbours_eq r.right X
    rw [hmapeq]
    rw [flatten_map_filter rules (fun r => r.right.dropLast.contains X)
      (fun r => rightNeighbours r.right X)
      (fun r hq => rightNeighbours_eq_nil hq)]
  · intro rules n X hs hnt
    rw [followOfSymbol]
    rw [if_neg (by simpa using hs)]
    rw [if_neg (by simpa using hnt)]
  · intro rules n
    rw [followOfSymbol]
    rw [if_pos (by simp)]

/-- C5 (counterexample): on the grammar `S => A B`, `A => a`, `B => b`, the
source computes FOLLOW(A) as the empty set, whereas the claimed formula
(FIRST of the right neighbour `B`) yields `{b}`. -/
theorem follow_differs_from_spec_formula :
    followOfSymbol followDemoRules 5 "A" = some [] ∧
    specFollowOfSymbol followDemoRules 5 "A" = some ["b"] ∧
    followOfSymbol followDemoRules 5 "A" ≠ specFollowOfSymbol followDemoRules 5 "A" := by
  refine ⟨rfl, rfl, by decide⟩

/-- C5 (witness): the recurrence instantiated on the example grammar at the
nonterminal `A`. -/
theorem followOfSymbol_neighbour_recurrence_witness :
    followOfSymbol exampleRules 5 "A" =
      (mapO (followOfSymbol exampleRules 4)
        ((exampleRules.map (fun r => rightNeighbours r.right "A")).flatten)).map
          List.flatten :=
  followOfSymbol_neighbour_recurrence.1 exampleRules 4 "A" (by decide) (by decide)

/-- Inversion on a derivation from a non-empty stack. -/
theorem Derives_cons_inv {rules : List ProductionRule} {a : String}
    {σ out : List String} (h : Derives rules (a :: σ) out) :
    (a ∈ terminalsOf rules ∧ ∃ out', out = a :: out' ∧ Derives rules σ out') ∨
    (a = EMPTY ∧ Derives rules σ out) ∨
    (∃ r ∈ rules, r.left = a ∧ Derives rules (r.right ++ σ) out) := by
  generalize hst : (a :: σ) = st at h
  cases h with
  | nil => simp at hst
  | term ht hr =>
    obtain ⟨rfl, rfl⟩ : _ ∧ _ := by
      constructor
      · exact (List.cons.injEq _ _ _ _ ▸ hst).1
      · exact (List.cons.injEq _ _ _ _ ▸ hst).2
    exact Or.inl ⟨ht, _, rfl, hr⟩
  | empty hr =>
    obtain ⟨rfl, rfl⟩ : _ ∧ _ := by
      constructor
      · exact (List.cons.injEq _ _ _ _ ▸ hst).1
      · exact (List.cons.injEq _ _ _ _ ▸ hst).2
    exact Or.inr (Or.inl ⟨rfl, hr⟩)
  | expand hrr hr =>
    obtain ⟨rfl, rfl⟩ : _ ∧ _ := by
      constructor
      · exact (List.cons.injEq _ _ _ _ ▸ hst).1
      · exact (List.cons.injEq _ _ _ _ ▸ hst).2
    exact Or.inr (Or.inr ⟨_, hrr, rfl, hr⟩)

/-- A run whose input list is empty (the end marker already consumed) never
returns a tree: the empty-stack check fails, a match is impossible, and a
table lookup crashes on the undefined input symbol. -/
theorem parseHelper_empty_input {p : Parser} :
    ∀ fuel stack focus path t, parseHelper p fuel [] stack focus path ≠ .tree t := by
  intro fuel
  induction fuel with
  | zero =>
    intro stack focus path t h
    exact PResult.noConfusion h
  | succ n ih =>
    intro stack focus path t h
    cases stack with
    | nil =>
      rw [parseHelper] at h
      rw [if_neg (by decide)] at h
      exact PResult.noConfusion h
    | cons s rest =>
      rw [parseHelper] at h
      dsimp only at h
      rw [if_neg (by simp)] at h
      by_cases hemp : (s == EMPTY) = true
      · rw [if_pos hemp] at h
        exact ih rest _ _ t h
      · rw [if_neg hemp] at h
        exact PResult.noConfusion h

/-- Every first-annotated rule of a constructed parser comes from a plain
rule of the grammar. -/
theorem rulesF_mem {rules : List ProductionRule} {fuel : Nat} {p : Parser}
    (hp : mkParser rules fuel = some p) {r : RuleF} (hr : r ∈ p.rulesF) :
    (⟨r.left, r.right⟩ : ProductionRule) ∈ rules := by
  obtain ⟨-, -, -, hrf, -⟩ := mkParser_parts hp
  obtain ⟨r0, hr0, hr0eq⟩ := mapO_mem hrf hr
  simp only [Option.map_eq_some'] at hr0eq
  obtain ⟨f, -, hf⟩ := hr0eq
  rw [← hf]
  exact hr0

/-- Soundness of the stack machine: a run over `pre ++ [$]` that returns a
tree witnesses that the stack derives `pre` (for an all-terminal `pre`). -/
theorem parseHelper_sound {rules : List ProductionRule} {fuelC : Nat} {p : Parser}
    (hp : mkParser rules fuelC = some p) :
    ∀ fuel pre stack focus path t,
      (∀ x ∈ pre, x ∈ terminalsOf rules) →
      parseHelper p fuel (pre ++ [ENDM]) stack focus path = .tree t →
      Derives rules stack pre := by
  intro fuel
  induction fuel with
  | zero =>
    intro pre stack focus path t hterm h
    exact PResult.noConfusion h
  | succ n ih =>
    intro pre stack focus path t hterm h
    cases stack with
    | nil =>
      by_cases he : pre = []
      · subst he
        exact Derives.nil
      · rw [parseHelper] at h
        rw [if_neg ?hcond] at h
        case hcond =>
          simp only [beq_iff_eq]
          intro hh
          have hlen := congrArg List.length hh
          simp at hlen
          exact he hlen
        exact absurd h (fun hh => PResult.noConfusion hh)
    | cons s rest =>
      rw [parseHelper] at h
      dsimp only at h
      by_cases hmatch : ((pre ++ [ENDM]).head? == some s) = true
      · rw [if_pos hmatch] at h
        cases pre with
        | nil =>
          exact absurd h (parseHelper_empty_input n rest _ _ t)
        | cons q pre' =>
          have hsq : s = q := by
            simp only [List.cons_append, List.head?_cons, beq_iff_eq,
              Option.some.injEq] at hmatch
            exact hmatch.symm
          subst hsq
          have hq : s ∈ terminalsOf rules := hterm s (by simp)
          have hder := ih pre' rest _ _ t (fun x hx => hterm x (by simp [hx])) h
          exact Derives.term hq hder
      · rw [if_neg hmatch] at h
        by_cases hemp : (s == EMPTY) = true
        · rw [if_pos hemp] at h
          have hder := ih pre rest _ _ t hterm h
          have hs : s = EMPTY := eq_of_beq hemp
          subst hs
          exact Derives.empty hder
        · rw [if_neg hemp] at h
          cases hlook : tableLookup p s (pre ++ [ENDM]).head? with
          | none =>
            rw [hlook] at h
            exact absurd h (fun hh => PResult.noConfusion hh)
          | some rule =>
            rw [hlook] at h
            dsimp only at h
            cases hdesc : descendLeftmost (addChildren focus rule.right) path with
            | none =>
              rw [hdesc] at h
              exact absurd h (fun hh => PResult.noConfusion hh)
            | some next =>
              rw [hdesc] at h
              dsimp only at h
              have hder := ih pre (rule.right ++ rest) next.1 next.2 t hterm h
              obtain ⟨i, hi⟩ : ∃ i, (pre ++ [ENDM]).head? = some i := by
                cases pre <;> simp
              rw [hi] at hlook
              obtain ⟨hrF, hleft⟩ := cell_lookup_backward hp hlook
              have hplain := rulesF_mem hp hrF
              have hexp := Derives.expand (r := ⟨rule.left, rule.right⟩) hplain hder
              rw [hleft] at hexp
              exact hexp

/-- C4: for a constructed parser and an input sequence of terminals that is
not in the grammar's language, the parse operation fails — a `null` return,
an undefined-access crash on an absent table cell, or exhaustion — and never
returns a tree.  (The source signals the failure by returning `null` or by
crashing on the `undefined` cell; the claimed `SyntaxError` is this failure
outcome.) -/
theorem parse_outside_language_fails (rules : List ProductionRule) (fuelC : Nat)
    (p : Parser) (fuelP : Nat) (raw : List String)
    (hp : mkParser rules fuelC = some p)
    (hterm : ∀ x ∈ raw, x ∈ terminalsOf rules)
    (hlang : ¬ InLanguage rules raw) :
    isTree (parse p fuelP raw) = false := by
  cases hres : parse p fuelP raw with
  | tree t =>
    exact absurd (parseHelper_sound hp fuelP raw [START] _ _ t hterm hres) hlang
  | nullResult => rfl
  | crash => rfl
  | outOfFuel => rfl

/-- The single terminal `b` is not derivable from the start symbol of the
example grammar. -/
theorem not_in_language_b : ¬ InLanguage exampleRules ["b"] := by
  intro h
  rcases Derives_cons_inv h with ⟨ht, out', hout, -⟩ | ⟨he, -⟩ | ⟨r, hr, hl, hd⟩
  · exact absurd ht (by decide)
  · exact absurd he (by decide)
  · simp only [exampleRules, List.mem_cons, List.not_mem_nil, or_false] at hr
    rcases hr with rfl | rfl | rfl | rfl | rfl
    · rcases Derives_cons_inv hd with ⟨-, out', hout, -⟩ | ⟨he, -⟩ | ⟨r', hr', hl', -⟩
      · simp at hout
      · exact absurd he (by decide)
      · simp only [exampleRules, List.mem_cons, List.not_mem_nil, or_false] at hr'
        rcases hr' with rfl | rfl | rfl | rfl | rfl <;> exact absurd hl' (by decide)
    · exact absurd hl (by decide)
    · exact absurd hl (by decide)
    · exact absurd hl (by decide)
    · exact absurd hl (by decide)

/-- C4 (witness): the input `b` consists of terminals of the example
grammar, is not in its language, and its parse returns no tree. -/
theorem parse_outside_language_fails_witness :
    isTree (parse exampleParser 20 ["b"]) = false :=
  parse_outside_language_fails exampleRules 10 exampleParser 20 ["b"] rfl
    (by decide) not_in_language_b

end LLParsers
